import Mathlib

/- Verification model of doc2pdf.py.

   Python strings are embedded as List Char and Python byte strings as
   List Nat (one Nat in 0..255 per byte).  Python's str.replace is modeled
   by pyReplace below: leftmost, non-overlapping matches, scanned left to
   right, with the replacement text not rescanned.  The model starts from
   the flattened part list produced by email.message_from_file(...).walk(),
   since the MIME parsing itself is done by the Python standard library.
   The BeautifulSoup parse/serialize round trip inside _clean_html is kept
   abstract as a parameter `soup : List Char → List Char`; its tree-level
   transformations (removal of xml / o:p elements and of empty divs) are
   modeled separately on an HTML tree type `Node`. -/

/- Python str.replace(pat, repl) restricted to a fuel bound; the fuel is
   instantiated with the length of the string, which always suffices since
   every step consumes at least one character.  (doc2pdf.py never calls
   replace with an empty pattern; for an empty pattern this model is the
   identity.) -/
def pyReplaceFuel (pat repl : List Char) : Nat → List Char → List Char
  | _, [] => []
  | 0, c :: rest => c :: rest
  | n + 1, c :: rest =>
    if pat.isPrefixOf (c :: rest) && !pat.isEmpty then
      repl ++ pyReplaceFuel pat repl n ((c :: rest).drop pat.length)
    else
      c :: pyReplaceFuel pat repl n rest

/-- Python `s.replace(pat, repl)`. -/
def pyReplace (pat repl s : List Char) : List Char :=
  pyReplaceFuel pat repl s.length s

/-- Whether `pat` occurs as a contiguous substring of the string. -/
def hasPattern (pat : List Char) : List Char → Bool
  | [] => pat.isEmpty
  | c :: rest => pat.isPrefixOf (c :: rest) || hasPattern pat rest

/-- Python `s.split(pat)` restricted to the same fuel bound as
`pyReplaceFuel`, with the same scan: leftmost non-overlapping occurrences
of the pattern separate the pieces.  The result is returned as (first
piece, later pieces), so it is nonempty by construction. -/
def pySplitFuel (pat : List Char) : Nat → List Char → List Char × List (List Char)
  | _, [] => ([], [])
  | 0, c :: rest => (c :: rest, [])
  | n + 1, c :: rest =>
    if pat.isPrefixOf (c :: rest) && !pat.isEmpty then
      ([], (pySplitFuel pat n ((c :: rest).drop pat.length)).1 ::
        (pySplitFuel pat n ((c :: rest).drop pat.length)).2)
    else
      (c :: (pySplitFuel pat n rest).1, (pySplitFuel pat n rest).2)

/-- Python `s.split(pat)`: the pieces of `s` between the leftmost
non-overlapping occurrences of `pat`. -/
def pySplit (pat s : List Char) : List (List Char) :=
  (pySplitFuel pat s.length s).1 :: (pySplitFuel pat s.length s).2

/-- Python `sep.join(pieces)`. -/
def joinWith (sep : List Char) : List (List Char) → List Char
  | [] => []
  | [piece] => piece
  | piece :: pieces => piece ++ sep ++ joinWith sep pieces

def pat3D : List Char := "=3D".data

def pat2D : List Char := "=2D".data

def patSoft : List Char := "=\n".data

/-- The three textual substitutions of `_clean_html` (doc2pdf.py lines
60-62), in source order: `=3D` → `=`, then `=2D` → space, then `=` directly
followed by a newline deleted. -/
def cleanText (s : List Char) : List Char :=
  pyReplace patSoft [] (pyReplace pat2D [' '] (pyReplace pat3D ['='] s))

/-- Exceptions that the modeled fragment of doc2pdf.py can raise. -/
inductive PyErr where
  | valueError : PyErr
  | unicodeDecodeError : PyErr
deriving DecidableEq

/-- Model of `_clean_html` (doc2pdf.py lines 54-76): the `if not
html_content` guard raises ValueError exactly on the empty string (Python
falsiness of str), then the three textual substitutions run, then the
BeautifulSoup parse / element removal / serialize round trip, abstracted
here as the parameter `soup` (its tree-level content is modeled on `Node`
below). -/
def clean_html (soup : List Char → List Char) (s : List Char) : Except PyErr (List Char) :=
  if s.isEmpty then Except.error PyErr.valueError
  else Except.ok (soup (cleanText s))

/-- Whether `clean_html` raises. -/
def cleanHtmlRaises (soup : List Char → List Char) (s : List Char) : Bool :=
  match clean_html soup s with
  | Except.error _ => true
  | Except.ok _ => false

/-- Python `str.isspace` characters relevant to ASCII whitespace. -/
def isPythonSpace (c : Char) : Bool :=
  c == ' ' || c == '\t' || c == '\n' || c == '\r' || c == '\x0b' || c == '\x0c'

/-- A nonempty string consisting only of whitespace. -/
def whitespaceOnly (s : List Char) : Bool :=
  !s.isEmpty && s.all isPythonSpace

def overlapInput : List Char := "=3D3D".data

def plainInput : List Char := "hello world".data

def spaceInput : List Char := [' ']

/- ------------------------------------------------------------------ -/
/- Byte-level codecs used by _extract_html.                           -/
/- ------------------------------------------------------------------ -/

def b64Alphabet : List Char :=
  "ABCDEFGHIJKLMNOPQRSTUVWXYZabcdefghijklmnopqrstuvwxyz0123456789+/".data

def b64Char (n : Nat) : Char := b64Alphabet.getD n 'A'

/-- Python `base64.b64encode` on a byte string (each Nat in 0..255),
producing the standard alphabet with `=` padding. -/
def b64encode : List Nat → List Char
  | [] => []
  | [a] => [b64Char (a / 4), b64Char (a % 4 * 16), '=', '=']
  | [a, b] => [b64Char (a / 4), b64Char (a % 4 * 16 + b / 16), b64Char (b % 16 * 4), '=']
  | a :: b :: c :: rest =>
    b64Char (a / 4) :: b64Char (a % 4 * 16 + b / 16) ::
      b64Char (b % 16 * 4 + c / 64) :: b64Char (c % 64) :: b64encode rest

/-- Continuation byte of a UTF-8 sequence. -/
def isCont (b : Nat) : Bool := 0x80 ≤ b && b ≤ 0xBF

/-- Python `bytes.decode('utf-8')` (strict), modeled with a fuel bound that
is instantiated with the length of the byte string; rejects truncated
sequences, overlong encodings, surrogates and code points above U+10FFFF,
returning `none` where Python raises UnicodeDecodeError. -/
def utf8DecodeFuel : Nat → List Nat → Option (List Char)
  | _, [] => some []
  | 0, _ :: _ => none
  | n + 1, b :: rest =>
    if b ≤ 0x7F then
      (utf8DecodeFuel n rest).map (fun cs => Char.ofNat b :: cs)
    else if 0xC2 ≤ b && b ≤ 0xDF then
      match rest with
      | b2 :: rest2 =>
        if isCont b2 then
          (utf8DecodeFuel n rest2).map
            (fun cs => Char.ofNat ((b - 0xC0) * 0x40 + (b2 - 0x80)) :: cs)
        else none
      | [] => none
    else if (b == 0xE0 || (0xE1 ≤ b && b ≤ 0xEF)) then
      match rest with
      | b2 :: b3 :: rest3 =>
        if (if b == 0xE0 then 0xA0 ≤ b2 && b2 ≤ 0xBF
            else if b == 0xED then 0x80 ≤ b2 && b2 ≤ 0x9F
            else isCont b2) && isCont b3 then
          (utf8DecodeFuel n rest3).map
            (fun cs => Char.ofNat ((b - 0xE0) * 0x1000 + (b2 - 0x80) * 0x40 + (b3 - 0x80)) :: cs)
        else none
      | _ => none
    else if (b == 0xF0 || (0xF1 ≤ b && b ≤ 0xF4)) then
      match rest with
      | b2 :: b3 :: b4 :: rest4 =>
        if (if b == 0xF0 then 0x90 ≤ b2 && b2 ≤ 0xBF
            else if b == 0xF4 then 0x80 ≤ b2 && b2 ≤ 0x8F
            else isCont b2) && isCont b3 && isCont b4 then
          (utf8DecodeFuel n rest4).map
            (fun cs => Char.ofNat ((b - 0xF0) * 0x40000 + (b2 - 0x80) * 0x1000 +
              (b3 - 0x80) * 0x40 + (b4 - 0x80)) :: cs)
        else none
      | _ => none
    else none

/-- Python `bytes.decode('utf-8')`. -/
def utf8Decode (bs : List Nat) : Option (List Char) :=
  utf8DecodeFuel bs.length bs

/-- Byte string of an ASCII text (used to build concrete fixtures). -/
def asciiBytes (s : List Char) : List Nat := s.map Char.toNat

/- ------------------------------------------------------------------ -/
/- The archive parser _extract_html (doc2pdf.py lines 19-52).         -/
/- ------------------------------------------------------------------ -/

/-- One part of the flattened `message.walk()` sequence.  `content_type` is
the value of `part.get_content_type()`, `content_location` the value of
`part.get('Content-Location', '')` (the empty list standing for an absent
header, as in the Python default), `transfer_encoding` the value of
`part.get('Content-Transfer-Encoding', '')`, and `payload` the byte string
returned by `part.get_payload(decode=True)`. -/
structure MimePart where
  content_type : List Char
  content_location : List Char
  transfer_encoding : List Char
  payload : List Nat
deriving DecidableEq

def htmlType : List Char := "text/html".data

def imageTypeStart : List Char := "image/".data

def octetStreamType : List Char := "application/octet-stream".data

def base64Name : List Char := "base64".data

def isHtmlPart (p : MimePart) : Bool := p.content_type == htmlType

/-- The content-type test of the `elif` branch: starts with `image/` or
equals `application/octet-stream`. -/
def isInlineableType (ct : List Char) : Bool :=
  imageTypeStart.isPrefixOf ct || ct == octetStreamType

/-- Python `str.lower`. -/
def lowercase (s : List Char) : List Char := s.map Char.toLower

/-- Python `s.split(sep)` for a single-character separator. -/
def splitOnChar (sep : Char) : List Char → List (List Char)
  | [] => [[]]
  | c :: rest =>
    match splitOnChar sep rest with
    | [] => [[c]]
    | seg :: segs => if c == sep then [] :: seg :: segs else (c :: seg) :: segs

/-- `content_location.split('/')[-1]`: the final `/`-separated segment. -/
def lastSegment (s : List Char) : List Char :=
  (splitOnChar '/' s).getLastD []

/-- The data URI stored for an inlineable part:
`data:<content_type>;base64,<b64 of the decoded payload>`. -/
def dataUriOf (p : MimePart) : List Char :=
  "data:".data ++ p.content_type ++ ";base64,".data ++ b64encode p.payload

/-- Whether the walk stores this part in the image map: inlineable content
type, transfer encoding case-insensitively `base64`, and a non-empty
content location. -/
def isStoredResource (p : MimePart) : Bool :=
  (isInlineableType p.content_type && (lowercase p.transfer_encoding == base64Name))
    && !p.content_location.isEmpty

/-- The `images` dict: an association list in Python-dict insertion order.
Inserting an existing key overwrites its value in place; a new key is
appended. -/
abbrev ImageMap := List (List Char × List Char)

def dictInsert (m : ImageMap) (k v : List Char) : ImageMap :=
  if m.any (fun q => q.1 == k) then
    m.map (fun q => if q.1 == k then (k, v) else q)
  else m ++ [(k, v)]

def dictLookup (m : ImageMap) (k : List Char) : Option (List Char) :=
  match m.find? (fun q => q.1 == k) with
  | some q => some q.2
  | none => none

/-- One iteration of the `for part in message.walk()` loop, over the state
(html_content, images).  An html part decodes its payload as UTF-8 and runs
`_clean_html`, overwriting html_content; an inlineable base64 part with a
content location stores its data URI in `images`; everything else is
skipped.  Exceptions propagate. -/
def walkStep (soup : List Char → List Char) (st : Option (List Char) × ImageMap)
    (p : MimePart) : Except PyErr (Option (List Char) × ImageMap) :=
  if isHtmlPart p then
    match utf8Decode p.payload with
    | none => Except.error PyErr.unicodeDecodeError
    | some t =>
      match clean_html soup t with
      | Except.error e => Except.error e
      | Except.ok c => Except.ok (some c, st.2)
  else if isInlineableType p.content_type && (lowercase p.transfer_encoding == base64Name) then
    if p.content_location.isEmpty then Except.ok st
    else Except.ok (st.1, dictInsert st.2 (lastSegment p.content_location) (dataUriOf p))
  else Except.ok st

/-- The part loop from a given state. -/
def walkFrom (soup : List Char → List Char) (st : Option (List Char) × ImageMap) :
    List MimePart → Except PyErr (Option (List Char) × ImageMap)
  | [] => Except.ok st
  | p :: rest =>
    match walkStep soup st p with
    | Except.error e => Except.error e
    | Except.ok st2 => walkFrom soup st2 rest

/-- The whole part loop of `_extract_html`, starting from html_content =
None and an empty image map. -/
def walk (soup : List Char → List Char) (parts : List MimePart) :
    Except PyErr (Option (List Char) × ImageMap) :=
  walkFrom soup (none, []) parts

def srcPat (k : List Char) : List Char := "src=\"".data ++ k ++ "\"".data

def diSrcPat (k : List Char) : List Char := "data-image-src=\"".data ++ k ++ "\"".data

/-- One iteration of the inlining loop (doc2pdf.py lines 47-50): replace
`src="<key>"`, then `data-image-src="<key>"`, by the same attribute with
the data URI. -/
def inlineStep (h : List Char) (kv : List Char × List Char) : List Char :=
  pyReplace (diSrcPat kv.1) (diSrcPat kv.2) (pyReplace (srcPat kv.1) (srcPat kv.2) h)

/-- The Resource Inliner: fold the substitutions over the image map in
insertion order. -/
def inlineResources (h : List Char) (images : ImageMap) : List Char :=
  images.foldl inlineStep h

/-- The `if html_content and images:` epilogue of `_extract_html`: inline
only when html_content is truthy (present and nonempty) and the image map
is nonempty; return html_content as-is otherwise. -/
def finishExtract (st : Option (List Char) × ImageMap) : Option (List Char) :=
  match st.1 with
  | none => none
  | some h => if !h.isEmpty && !st.2.isEmpty then some (inlineResources h st.2) else some h

/-- Model of `_extract_html`, from the flattened part list to the returned
html_content (None when no html part was seen). -/
def extract_html (soup : List Char → List Char) (parts : List MimePart) :
    Except PyErr (Option (List Char)) :=
  match walk soup parts with
  | Except.error e => Except.error e
  | Except.ok st => Except.ok (finishExtract st)

/-- The last element of the list satisfying the predicate. -/
def lastMatch (pred : MimePart → Bool) : List MimePart → Option MimePart
  | [] => none
  | p :: rest =>
    match lastMatch pred rest with
    | some q => some q
    | none => if pred p then some p else none

/- ------------------------------------------------------------------ -/
/- html_to_pdf (Playwright variant, doc2pdf.py lines 108-149) and     -/
/- convert_mhtml_to_pdf (lines 151-169).                              -/
/- ------------------------------------------------------------------ -/

/-- File-system facts tracked around the rendering call: whether the
temporary `.html` file next to the output path exists, and whether the
output PDF has been written. -/
structure RenderFs where
  tempHtmlExists : Bool
  pdfWritten : Bool
deriving DecidableEq

/-- The try/except body of `html_to_pdf` before the `finally` block runs.
`html = none` models `convert_mhtml_to_pdf` passing `cleaned_html = None`:
`write_text` first creates (truncates) the file and then raises TypeError
on the non-str body, so the temporary file exists but no browser is ever
launched.  With a string body the temporary file is written and the
rendering engine either produces the PDF (`renderOk`) or raises, which the
`except` clause turns into a False result.  Returns
(result, renderCalled, file-system state before `finally`). -/
def htmlToPdfBody (html : Option (List Char)) (renderOk : Bool) :
    Bool × Bool × RenderFs :=
  match html with
  | none => (false, false, { tempHtmlExists := true, pdfWritten := false })
  | some _ =>
    if renderOk then (true, true, { tempHtmlExists := true, pdfWritten := true })
    else (false, true, { tempHtmlExists := true, pdfWritten := false })

/-- The `finally` block: if the temporary HTML file exists, unlink it. -/
def runFinally (fs : RenderFs) : RenderFs :=
  if fs.tempHtmlExists then { fs with tempHtmlExists := false } else fs

/-- Model of the Playwright `html_to_pdf`: run the body, then the
`finally` cleanup.  Returns (result, renderCalled, final file system). -/
def html_to_pdf (html : Option (List Char)) (renderOk : Bool) :
    Bool × Bool × RenderFs :=
  match htmlToPdfBody html renderOk with
  | (ok, rc, fs) => (ok, rc, runFinally fs)

/-- External facts a conversion job depends on: whether the output path
already exists, whether `validate_pdf` (pypdf opening the file and counting
its pages) succeeds on it, and whether the rendering engine succeeds. -/
structure ConvertEnv where
  outputExists : Bool
  outputValidPdf : Bool
  renderOk : Bool
deriving DecidableEq

/-- Observable outcome of `convert_mhtml_to_pdf`: the returned boolean,
whether the input file was read and parsed, whether a rendering call was
attempted, and whether the output PDF was (over)written. -/
structure ConvertOutcome where
  ok : Bool
  readInput : Bool
  renderCalled : Bool
  pdfWritten : Bool
deriving DecidableEq

/-- Model of `convert_mhtml_to_pdf`: skip immediately when the output
exists and validates as a PDF; otherwise extract (any exception is caught
and yields False), then hand the html to `html_to_pdf`. -/
def convert_mhtml_to_pdf (soup : List Char → List Char) (parts : List MimePart)
    (env : ConvertEnv) : ConvertOutcome :=
  if env.outputExists && env.outputValidPdf then
    { ok := true, readInput := false, renderCalled := false, pdfWritten := false }
  else
    match extract_html soup parts with
    | Except.error _ =>
      { ok := false, readInput := true, renderCalled := false, pdfWritten := false }
    | Except.ok html =>
      match html_to_pdf html env.renderOk with
      | (ok, rc, fs) =>
        { ok := ok, readInput := true, renderCalled := rc, pdfWritten := fs.pdfWritten }

/- ------------------------------------------------------------------ -/
/- The BeautifulSoup tree stage of _clean_html (lines 64-76).         -/
/- ------------------------------------------------------------------ -/

/-- A parsed HTML node: a text node, or an element with a tag and a list
of children. -/
inductive Node where
  | text : List Char → Node
  | elem : List Char → List Node → Node

/-- The tags removed by `soup.find_all(['xml', 'o:p'])`. -/
def bannedTags : List (List Char) := ["xml".data, "o:p".data]

def divTag : List Char := "div".data

/-- The first removal loop: decompose every element whose tag is `xml` or
`o:p`, anywhere in the tree (a decomposed element takes its whole subtree
with it). -/
def removeBannedList : List Node → List Node
  | [] => []
  | Node.text s :: ns => Node.text s :: removeBannedList ns
  | Node.elem t cs :: ns =>
    if bannedTags.contains t then removeBannedList ns
    else Node.elem t (removeBannedList cs) :: removeBannedList ns

/-- The second removal loop (`for div in soup.find_all('div')` with
`div.string is None and len(div.contents) == 0`): `find_all` yields the
divs in document order, parents before their descendants, so each div is
examined with its children as they stood before the sweep reaches them;
the sweep therefore removes exactly the divs whose child list is empty in
the incoming tree, while recursing into the children of every kept
element. -/
def pruneList : List Node → List Node
  | [] => []
  | Node.text s :: ns => Node.text s :: pruneList ns
  | Node.elem t cs :: ns =>
    if t == divTag && cs.isEmpty then pruneList ns
    else Node.elem t (pruneList cs) :: pruneList ns

/-- Both tree transformations of `_clean_html`, in source order. -/
def cleanTree (doc : List Node) : List Node := pruneList (removeBannedList doc)

/-- No `xml` or `o:p` element anywhere in the forest. -/
def noBannedList : List Node → Bool
  | [] => true
  | Node.text _ :: ns => noBannedList ns
  | Node.elem t cs :: ns => !bannedTags.contains t && noBannedList cs && noBannedList ns

/-- Some `div` element with no children (hence no text content) occurs
somewhere in the forest. -/
def containsEmptyDiv : List Node → Bool
  | [] => false
  | Node.text _ :: ns => containsEmptyDiv ns
  | Node.elem t cs :: ns =>
    (t == divTag && cs.isEmpty) || containsEmptyDiv cs || containsEmptyDiv ns

/-- A childless `div` element. -/
def isEmptyDivNode : Node → Bool
  | Node.text _ => false
  | Node.elem t cs => t == divTag && cs.isEmpty

/- ------------------------------------------------------------------ -/
/- The extension check of main's single-file branch (lines 217-221).  -/
/- ------------------------------------------------------------------ -/

/-- `pathlib.PurePath.name` for a POSIX path string: the last slash
component, with empty components and `.` components dropped. -/
def pathName (p : List Char) : List Char :=
  ((splitOnChar '/' p).filter (fun c => !c.isEmpty && c ≠ ".".data)).getLastD []

/-- Index of the last `.` in the string, if any. -/
def lastDotIdx : List Char → Option Nat
  | [] => none
  | c :: rest =>
    match lastDotIdx rest with
    | some i => some (i + 1)
    | none => if c == '.' then some 0 else none

/-- `pathlib.PurePath.suffix` of a file name: the part from the last dot
on, but only when that dot is neither the first nor the last character
(CPython: `0 < i < len(name) - 1`). -/
def pySuffix (name : List Char) : List Char :=
  match lastDotIdx name with
  | some i => if 0 < i && i + 1 < name.length then name.drop i else []
  | none => []

def allowedExts : List (List Char) := [".mhtml".data, ".mht".data, ".doc".data]

/-- The single-file branch of `main`: raise ValueError iff
`input_path.suffix.lower()` is not one of `.mhtml`, `.mht`, `.doc`. -/
def main_single_raises (input : List Char) : Bool :=
  !(allowedExts.contains (lowercase (pySuffix (pathName input))))

/- ------------------------------------------------------------------ -/
/- Concrete fixtures.                                                 -/
/- ------------------------------------------------------------------ -/

def helloPart : MimePart :=
  { content_type := htmlType, content_location := [], transfer_encoding := [],
    payload := asciiBytes ("Hello".data) }

def worldPart : MimePart :=
  { content_type := htmlType, content_location := [], transfer_encoding := [],
    payload := asciiBytes ("World".data) }

def emptyHtmlPart : MimePart :=
  { content_type := htmlType, content_location := [], transfer_encoding := [],
    payload := [] }

def pngPartA : MimePart :=
  { content_type := "image/png".data, content_location := "img/a.png".data,
    transfer_encoding := "BASE64".data, payload := [1, 2, 3] }

def pngPartB : MimePart :=
  { content_type := "image/png".data, content_location := "img/a.png".data,
    transfer_encoding := "base64".data, payload := [4, 5, 6] }

def demoImgs : ImageMap := [("a.png".data, dataUriOf pngPartB)]

def c4Html : List Char := "<img src=\"logo.png\"><img src=\"other.png\">".data

def c4Key : List Char := "logo.png".data

def c4Uri : List Char := "data:image/png;base64,AAAA".data

def c4Out : List Char :=
  "<img src=\"data:image/png;base64,AAAA\"><img src=\"other.png\">".data

def c4PlainHtml : List Char := "<p>no references here</p>".data

def c4MapW : ImageMap := [(c4Key, c4Uri)]

def chainHtml : List Char := "<img src=\"a\">".data

def chainMap : ImageMap := [("a".data, "b".data), ("b".data, "c".data)]

def envFresh : ConvertEnv :=
  { outputExists := false, outputValidPdf := false, renderOk := true }

def envStale : ConvertEnv :=
  { outputExists := true, outputValidPdf := false, renderOk := true }

def envDone : ConvertEnv :=
  { outputExists := true, outputValidPdf := true, renderOk := true }

def demoUpperPath : List Char := "docs/report.MHT".data

/- Helper: a replacement pass over a string not containing the pattern is
   the identity. -/
theorem pyReplaceFuel_no_pattern (pat repl : List Char) :
    ∀ (n : Nat) (s : List Char), s.length ≤ n → hasPattern pat s = false →
      pyReplaceFuel pat repl n s = s := by
  intro n
  induction n with
  | zero =>
    intro s hle _
    cases s with
    | nil => rfl
    | cons c rest => simp at hle
  | succ n ih =>
    intro s hle hnp
    cases s with
    | nil => rfl
    | cons c rest =>
      simp only [hasPattern, Bool.or_eq_false_iff] at hnp
      obtain ⟨h1, h2⟩ := hnp
      have hrest : rest.length ≤ n := by
        simp only [List.length_cons] at hle
        omega
      simp [pyReplaceFuel, h1, ih rest hrest h2]

theorem pyReplace_no_pattern (pat repl s : List Char)
    (h : hasPattern pat s = false) : pyReplace pat repl s = s :=
  pyReplaceFuel_no_pattern pat repl s.length s (Nat.le_refl _) h

/- If pat is a prefix of s, then s is pat followed by the remainder. -/
theorem append_drop_of_isPrefixOf (pat : List Char) :
    ∀ (s : List Char), pat.isPrefixOf s = true →
      pat ++ s.drop pat.length = s := by
  induction pat with
  | nil => intro s _; simp
  | cons a pat ih =>
    intro s hp
    cases s with
    | nil => simp [List.isPrefixOf] at hp
    | cons b s =>
      simp only [List.isPrefixOf, Bool.and_eq_true, beq_iff_eq] at hp
      obtain ⟨hab, hps⟩ := hp
      subst hab
      simp only [List.cons_append, List.length_cons, List.drop_succ_cons,
        List.cons.injEq, true_and]
      exact ih s hps

/- A prefix test survives extending the string on the right. -/
theorem isPrefixOf_append_of_isPrefixOf (pat : List Char) :
    ∀ (xs ys : List Char), pat.isPrefixOf xs = true →
      pat.isPrefixOf (xs ++ ys) = true := by
  induction pat with
  | nil => intro xs ys _; simp
  | cons a pat ih =>
    intro xs ys hp
    cases xs with
    | nil => simp [List.isPrefixOf] at hp
    | cons b xs =>
      simp only [List.isPrefixOf, Bool.and_eq_true, beq_iff_eq] at hp
      obtain ⟨hab, hps⟩ := hp
      subst hab
      simp only [List.cons_append, List.isPrefixOf, beq_self_eq_true,
        Bool.true_and]
      exact ih xs ys hps

/- The split's first piece is a prefix of the string, and every piece of
   the split is free of the pattern. -/
theorem pySplitFuel_pieces (pat : List Char) (hpat : pat ≠ []) :
    ∀ (n : Nat) (s : List Char), s.length ≤ n →
      (∃ t, (pySplitFuel pat n s).1 ++ t = s) ∧
      (∀ piece ∈ (pySplitFuel pat n s).1 :: (pySplitFuel pat n s).2,
        hasPattern pat piece = false) := by
  have hne : pat.isEmpty = false := by
    cases pat with
    | nil => exact absurd rfl hpat
    | cons a l => rfl
  have hempty : hasPattern pat [] = false := by
    simp [hasPattern, hne]
  have hlen1 : 1 ≤ pat.length := by
    cases pat with
    | nil => exact absurd rfl hpat
    | cons a l => simp
  intro n
  induction n with
  | zero =>
    intro s hle
    cases s with
    | nil =>
      refine ⟨⟨[], rfl⟩, ?_⟩
      intro piece hm
      simp only [pySplitFuel, List.mem_cons, List.not_mem_nil, or_false] at hm
      rw [hm]
      exact hempty
    | cons c rest => simp at hle
  | succ n ih =>
    intro s hle
    cases s with
    | nil =>
      refine ⟨⟨[], rfl⟩, ?_⟩
      intro piece hm
      simp only [pySplitFuel, List.mem_cons, List.not_mem_nil, or_false] at hm
      rw [hm]
      exact hempty
    | cons c rest =>
      by_cases hpre : pat.isPrefixOf (c :: rest) = true
      · have hcond : (pat.isPrefixOf (c :: rest) && !pat.isEmpty) = true := by
          simp [hpre, hne]
        have hdrop : ((c :: rest).drop pat.length).length ≤ n := by
          simp only [List.length_drop, List.length_cons]
          simp only [List.length_cons] at hle
          omega
        obtain ⟨_, hpieces⟩ := ih ((c :: rest).drop pat.length) hdrop
        constructor
        · exact ⟨c :: rest, by simp [pySplitFuel, hcond]⟩
        · intro piece hm
          simp only [pySplitFuel, hcond, if_true] at hm
          cases List.mem_cons.mp hm with
          | inl h => rw [h]; exact hempty
          | inr h => exact hpieces piece h
      · have hpre2 : pat.isPrefixOf (c :: rest) = false := by
          cases hx : pat.isPrefixOf (c :: rest) with
          | false => rfl
          | true => exact absurd hx hpre
        have hcond : (pat.isPrefixOf (c :: rest) && !pat.isEmpty) = false := by
          simp [hpre2]
        have hrest : rest.length ≤ n := by
          simp only [List.length_cons] at hle
          omega
        obtain ⟨⟨t, hpref⟩, hpieces⟩ := ih rest hrest
        constructor
        · refine ⟨t, ?_⟩
          simp only [pySplitFuel, hcond, Bool.false_eq_true, if_false,
            List.cons_append, hpref]
        · intro piece hm
          simp only [pySplitFuel, hcond, Bool.false_eq_true, if_false] at hm
          cases List.mem_cons.mp hm with
          | inl h =>
            rw [h]
            simp only [hasPattern, Bool.or_eq_false_iff]
            constructor
            · cases hx : pat.isPrefixOf (c :: (pySplitFuel pat n rest).1) with
              | false => rfl
              | true =>
                exfalso
                have hext := isPrefixOf_append_of_isPrefixOf pat
                  (c :: (pySplitFuel pat n rest).1) t hx
                rw [List.cons_append, hpref] at hext
                rw [hpre2] at hext
                exact absurd hext (by simp)
            · exact hpieces _ (List.mem_cons_self _ _)
          | inr h => exact hpieces piece (List.mem_cons_of_mem _ h)

/- A replacement pass rejoins the split's pieces with the replacement. -/
theorem pyReplaceFuel_eq_join (pat repl : List Char) :
    ∀ (n : Nat) (s : List Char), s.length ≤ n →
      pyReplaceFuel pat repl n s =
        joinWith repl ((pySplitFuel pat n s).1 :: (pySplitFuel pat n s).2) := by
  intro n
  induction n with
  | zero =>
    intro s hle
    cases s with
    | nil => rfl
    | cons c rest => simp at hle
  | succ n ih =>
    intro s hle
    cases s with
    | nil => rfl
    | cons c rest =>
      by_cases hcond : (pat.isPrefixOf (c :: rest) && !pat.isEmpty) = true
      · have hlen1 : 1 ≤ pat.length := by
          cases pat with
          | nil => simp at hcond
          | cons a l => simp
        have hdrop : ((c :: rest).drop pat.length).length ≤ n := by
          simp only [List.length_drop, List.length_cons]
          simp only [List.length_cons] at hle
          omega
        simp only [pyReplaceFuel, pySplitFuel, hcond, if_true]
        rw [ih _ hdrop]
        rfl
      · have hcond2 : (pat.isPrefixOf (c :: rest) && !pat.isEmpty) = false := by
          cases hx : (pat.isPrefixOf (c :: rest) && !pat.isEmpty) with
          | false => rfl
          | true => exact absurd hx hcond
        have hrest : rest.length ≤ n := by
          simp only [List.length_cons] at hle
          omega
        simp only [pyReplaceFuel, pySplitFuel, hcond2, Bool.false_eq_true,
          if_false]
        rw [ih rest hrest]
        cases hps : (pySplitFuel pat n rest).2 with
        | nil => rfl
        | cons q qs => simp [joinWith]

/- Rejoining the split's pieces with the pattern itself reconstructs the
   string: the split is exactly the decomposition of the string at the
   leftmost non-overlapping occurrences of the pattern. -/
theorem join_pySplitFuel (pat : List Char) :
    ∀ (n : Nat) (s : List Char), s.length ≤ n →
      joinWith pat ((pySplitFuel pat n s).1 :: (pySplitFuel pat n s).2) = s := by
  intro n
  induction n with
  | zero =>
    intro s hle
    cases s with
    | nil => rfl
    | cons c rest => simp at hle
  | succ n ih =>
    intro s hle
    cases s with
    | nil => rfl
    | cons c rest =>
      by_cases hcond : (pat.isPrefixOf (c :: rest) && !pat.isEmpty) = true
      · have hpre : pat.isPrefixOf (c :: rest) = true := by
          cases hx : pat.isPrefixOf (c :: rest) with
          | true => rfl
          | false => rw [hx] at hcond; simp at hcond
        have hlen1 : 1 ≤ pat.length := by
          cases pat with
          | nil => simp at hcond
          | cons a l => simp
        have hdrop : ((c :: rest).drop pat.length).length ≤ n := by
          simp only [List.length_drop, List.length_cons]
          simp only [List.length_cons] at hle
          omega
        simp only [pySplitFuel, hcond, if_true]
        show [] ++ pat ++
          joinWith pat ((pySplitFuel pat n ((c :: rest).drop pat.length)).1 ::
            (pySplitFuel pat n ((c :: rest).drop pat.length)).2) = c :: rest
        rw [ih _ hdrop, List.nil_append]
        exact append_drop_of_isPrefixOf pat (c :: rest) hpre
      · have hcond2 : (pat.isPrefixOf (c :: rest) && !pat.isEmpty) = false := by
          cases hx : (pat.isPrefixOf (c :: rest) && !pat.isEmpty) with
          | false => rfl
          | true => exact absurd hx hcond
        have hrest : rest.length ≤ n := by
          simp only [List.length_cons] at hle
          omega
        simp only [pySplitFuel, hcond2, Bool.false_eq_true, if_false]
        have ihr := ih rest hrest
        cases hps : (pySplitFuel pat n rest).2 with
        | nil =>
          rw [hps] at ihr
          have h2 : (pySplitFuel pat n rest).1 = rest := ihr
          show c :: (pySplitFuel pat n rest).1 = c :: rest
          rw [h2]
        | cons q qs =>
          rw [hps] at ihr
          have h2 : (pySplitFuel pat n rest).1 ++ pat ++
            joinWith pat (q :: qs) = rest := ihr
          show (c :: (pySplitFuel pat n rest).1) ++ pat ++
            joinWith pat (q :: qs) = c :: rest
          simp only [List.cons_append]
          rw [h2]

theorem pyReplace_eq_join (pat repl s : List Char) :
    pyReplace pat repl s = joinWith repl (pySplit pat s) :=
  pyReplaceFuel_eq_join pat repl s.length s (Nat.le_refl _)

theorem join_pySplit (pat s : List Char) :
    joinWith pat (pySplit pat s) = s :=
  join_pySplitFuel pat s.length s (Nat.le_refl _)

theorem pySplit_no_pattern (pat s : List Char) (hpat : pat ≠ []) :
    ∀ piece ∈ pySplit pat s, hasPattern pat piece = false :=
  (pySplitFuel_pieces pat hpat s.length s (Nat.le_refl _)).2

/-- C1 (counterexample): on the input `=3D3D` the textual substitutions of
the Normalizer are not idempotent and leave a residual `=3D` artifact: one
pass yields `=3D`, and a second pass turns that into `=`. -/
theorem cleanText_overlap_counterexample :
    cleanText (cleanText overlapInput) ≠ cleanText overlapInput ∧
    hasPattern pat3D (cleanText overlapInput) = true := by
  constructor
  · decide
  · decide

/-- C1 (amended): on every input containing none of the literal patterns
`=3D`, `=2D`, `=` followed by a newline, the textual substitutions are the
identity; hence a second run returns the output unchanged and the output
contains none of the three patterns.  (In general the substitutions are not
idempotent: overlapping artifacts such as `=3D3D` leave a residual `=3D`.) -/
theorem cleanText_artifact_free_identity (s : List Char)
    (h3 : hasPattern pat3D s = false) (h2 : hasPattern pat2D s = false)
    (hn : hasPattern patSoft s = false) :
    cleanText s = s ∧ cleanText (cleanText s) = cleanText s ∧
    hasPattern pat3D (cleanText s) = false ∧
    hasPattern pat2D (cleanText s) = false ∧
    hasPattern patSoft (cleanText s) = false := by
  have hid : cleanText s = s := by
    unfold cleanText
    rw [pyReplace_no_pattern _ _ _ h3, pyReplace_no_pattern _ _ _ h2,
      pyReplace_no_pattern _ _ _ hn]
  refine ⟨hid, ?_, ?_, ?_, ?_⟩
  · rw [hid, hid]
  · rw [hid]; exact h3
  · rw [hid]; exact h2
  · rw [hid]; exact hn

/-- C1 (witness): the amended statement at the concrete artifact-free input
`hello world`. -/
theorem cleanText_artifact_free_identity_witness :
    cleanText plainInput = plainInput ∧
    cleanText (cleanText plainInput) = cleanText plainInput ∧
    hasPattern pat3D (cleanText plainInput) = false ∧
    hasPattern pat2D (cleanText plainInput) = false ∧
    hasPattern patSoft (cleanText plainInput) = false :=
  cleanText_artifact_free_identity plainInput (by decide) (by decide) (by decide)

/-- C2 (counterexample): the single-space input is whitespace-only but
`_clean_html` does not raise on it — `if not html_content` only fires on
the empty string, and `" "` is truthy in Python — so the cleaned text is
returned instead of a validation error. -/
theorem clean_html_whitespace_not_raising :
    whitespaceOnly spaceInput = true ∧
    clean_html id spaceInput = Except.ok spaceInput := by
  constructor
  · decide
  · rfl

/-- C2 (amended): `_clean_html` raises its input-validation ValueError
exactly on the empty string; every nonempty input, including whitespace-only
input, is processed without raising. -/
theorem clean_html_raises_iff_empty (soup : List Char → List Char) (s : List Char) :
    cleanHtmlRaises soup s = s.isEmpty := by
  unfold cleanHtmlRaises clean_html
  cases h : s.isEmpty <;> simp [h]

/- ------------------------------------------------------------------ -/
/- Helper lemmas about the walk.                                      -/
/- ------------------------------------------------------------------ -/

/- A part that is not text/html never raises; it stores its data URI
   exactly when `isStoredResource` holds and leaves the state unchanged
   otherwise. -/
theorem walkStep_not_html (soup : List Char → List Char)
    (st : Option (List Char) × ImageMap) (p : MimePart)
    (h1 : isHtmlPart p = false) :
    walkStep soup st p = Except.ok
      (st.1,
        if isStoredResource p then
          dictInsert st.2 (lastSegment p.content_location) (dataUriOf p)
        else st.2) := by
  by_cases hc : (isInlineableType p.content_type &&
      (lowercase p.transfer_encoding == base64Name)) = true
  · by_cases hl : p.content_location.isEmpty = true
    · simp [walkStep, h1, hc, hl, isStoredResource]
    · simp [walkStep, h1, hc, hl, isStoredResource]
  · simp [walkStep, h1, hc, isStoredResource]

/- A text/html part with a decodable nonempty payload succeeds and
   overwrites html_content with the cleaned text. -/
theorem walkStep_html_ok (soup : List Char → List Char)
    (st : Option (List Char) × ImageMap) (p : MimePart) (t : List Char)
    (h1 : isHtmlPart p = true) (hd : utf8Decode p.payload = some t)
    (hne : t ≠ []) :
    walkStep soup st p = Except.ok (some (soup (cleanText t)), st.2) := by
  have he : t.isEmpty = false := by
    cases t with
    | nil => exact absurd rfl hne
    | cons c cs => rfl
  simp [walkStep, h1, hd, clean_html, he]

/- A successful step on a text/html part never touches the image map. -/
theorem walkStep_html_snd (soup : List Char → List Char)
    (st st2 : Option (List Char) × ImageMap) (p : MimePart)
    (h1 : isHtmlPart p = true)
    (hws : walkStep soup st p = Except.ok st2) : st2.2 = st.2 := by
  simp only [walkStep, h1, if_true] at hws
  cases hd : utf8Decode p.payload with
  | none => rw [hd] at hws; exact absurd hws (by simp)
  | some t =>
    rw [hd] at hws
    dsimp only at hws
    cases hc : clean_html soup t with
    | error e => rw [hc] at hws; exact absurd hws (by simp)
    | ok c =>
      rw [hc] at hws
      dsimp only at hws
      have := Except.ok.inj hws
      rw [← this]

/- The loop distributes over list concatenation. -/
theorem walkFrom_append (soup : List Char → List Char) (l1 l2 : List MimePart) :
    ∀ st, walkFrom soup st (l1 ++ l2) =
      match walkFrom soup st l1 with
      | Except.error e => Except.error e
      | Except.ok st2 => walkFrom soup st2 l2 := by
  induction l1 with
  | nil => intro st; simp [walkFrom]
  | cons p rest ih =>
    intro st
    simp only [List.cons_append, walkFrom]
    cases walkStep soup st p with
    | error e => rfl
    | ok st2 => exact ih st2

/- Over parts none of which is text/html, the loop cannot fail and leaves
   html_content unchanged. -/
theorem walkFrom_no_html (soup : List Char → List Char) (parts : List MimePart) :
    ∀ st, (∀ q ∈ parts, isHtmlPart q = false) →
      ∃ imgs, walkFrom soup st parts = Except.ok (st.1, imgs) := by
  induction parts with
  | nil => intro st _; exact ⟨st.2, by simp [walkFrom]⟩
  | cons p rest ih =>
    intro st hno
    have hp : isHtmlPart p = false := hno p (List.mem_cons_self p rest)
    have hrest : ∀ q ∈ rest, isHtmlPart q = false :=
      fun q hq => hno q (List.mem_cons_of_mem p hq)
    obtain ⟨imgs, hw⟩ := ih
      (st.1,
        if isStoredResource p then
          dictInsert st.2 (lastSegment p.content_location) (dataUriOf p)
        else st.2) hrest
    refine ⟨imgs, ?_⟩
    simp only [walkFrom, walkStep_not_html soup st p hp]
    exact hw

/- Over parts whose text/html members all decode to nonempty text, the
   loop cannot fail. -/
theorem walkFrom_ok (soup : List Char → List Char) (parts : List MimePart) :
    ∀ st, (∀ q ∈ parts, isHtmlPart q = true →
        ∃ t, utf8Decode q.payload = some t ∧ t ≠ []) →
      ∃ st2, walkFrom soup st parts = Except.ok st2 := by
  induction parts with
  | nil => intro st _; exact ⟨st, by simp [walkFrom]⟩
  | cons p rest ih =>
    intro st hok
    have hrest : ∀ q ∈ rest, isHtmlPart q = true →
        ∃ t, utf8Decode q.payload = some t ∧ t ≠ [] :=
      fun q hq => hok q (List.mem_cons_of_mem p hq)
    by_cases hp : isHtmlPart p = true
    · obtain ⟨t, hd, hne⟩ := hok p (List.mem_cons_self p rest) hp
      obtain ⟨st2, hw⟩ := ih (some (soup (cleanText t)), st.2) hrest
      refine ⟨st2, ?_⟩
      simp only [walkFrom, walkStep_html_ok soup st p t hp hd hne]
      exact hw
    · have hp2 : isHtmlPart p = false := by
        cases h : isHtmlPart p with
        | false => rfl
        | true => exact absurd h hp
      obtain ⟨st2, hw⟩ := ih
        (st.1,
          if isStoredResource p then
            dictInsert st.2 (lastSegment p.content_location) (dataUriOf p)
          else st.2) hrest
      refine ⟨st2, ?_⟩
      simp only [walkFrom, walkStep_not_html soup st p hp2]
      exact hw

/- ------------------------------------------------------------------ -/
/- Dict lemmas.                                                       -/
/- ------------------------------------------------------------------ -/

theorem find?_append (pred : (List Char × List Char) → Bool)
    (l1 l2 : ImageMap) :
    List.find? pred (l1 ++ l2) =
      match List.find? pred l1 with
      | some q => some q
      | none => List.find? pred l2 := by
  induction l1 with
  | nil => simp
  | cons q l1 ih =>
    by_cases hq : pred q = true
    · simp [List.find?, hq]
    · have hq2 : pred q = false := by
        cases h : pred q with
        | false => rfl
        | true => exact absurd h hq
      simp [List.find?, hq2, ih]

theorem find?_update_same (m : ImageMap) (k v : List Char) :
    m.any (fun q => q.1 == k) = true →
    List.find? (fun q => q.1 == k)
      (m.map (fun q => if q.1 == k then (k, v) else q)) = some (k, v) := by
  induction m with
  | nil => intro h; simp at h
  | cons q m ih =>
    intro h
    rw [List.map_cons]
    by_cases hq : (q.1 == k) = true
    · have hfq : (if (q.1 == k) = true then ((k, v) : List Char × List Char) else q) = (k, v) := by
        rw [if_pos hq]
      rw [hfq]
      exact List.find?_cons_of_pos _ (by simp)
    · have hq2 : (q.1 == k) = false := by
        cases hx : (q.1 == k) with
        | false => rfl
        | true => exact absurd hx hq
      have hfq : (if (q.1 == k) = true then ((k, v) : List Char × List Char) else q) = q := by
        rw [if_neg hq]
      rw [hfq]
      simp only [List.any_cons, hq2, Bool.false_or] at h
      rw [List.find?_cons_of_neg _ (by simp [hq2])]
      exact ih h

theorem find?_update_other (m : ImageMap) (k v k2 : List Char) (hne : k2 ≠ k) :
    List.find? (fun q => q.1 == k2)
      (m.map (fun q => if q.1 == k then (k, v) else q)) =
    List.find? (fun q => q.1 == k2) m := by
  induction m with
  | nil => simp
  | cons q m ih =>
    rw [List.map_cons]
    by_cases hq : (q.1 == k) = true
    · have h1 : ((k : List Char) == k2) = false := by
        simp only [beq_eq_false_iff_ne, ne_eq]
        exact fun h => hne h.symm
      have h2 : (q.1 == k2) = false := by
        have hk : q.1 = k := by simpa using hq
        rw [hk]; exact h1
      have hfq : (if (q.1 == k) = true then ((k, v) : List Char × List Char) else q) = (k, v) := by
        rw [if_pos hq]
      rw [hfq, List.find?_cons_of_neg _ (by simp [h1]),
        List.find?_cons_of_neg _ (by simp [h2])]
      exact ih
    · have hq2 : (q.1 == k) = false := by
        cases hx : (q.1 == k) with
        | false => rfl
        | true => exact absurd hx hq
      have hfq : (if (q.1 == k) = true then ((k, v) : List Char × List Char) else q) = q := by
        rw [if_neg hq]
      rw [hfq]
      by_cases hm : (q.1 == k2) = true
      · rw [List.find?_cons_of_pos _ (by simp [hm]),
          List.find?_cons_of_pos _ (by simp [hm])]
      · rw [List.find?_cons_of_neg _ (by exact hm), List.find?_cons_of_neg _ (by exact hm)]
        exact ih

theorem find?_none_of_any_false (m : ImageMap) (k : List Char)
    (h : m.any (fun q => q.1 == k) = false) :
    List.find? (fun q => q.1 == k) m = none := by
  induction m with
  | nil => simp
  | cons q m ih =>
    simp only [List.any_cons, Bool.or_eq_false_iff] at h
    obtain ⟨h1, h2⟩ := h
    simp [List.find?, h1, ih h2]

theorem dictLookup_dictInsert (m : ImageMap) (k v k2 : List Char) :
    dictLookup (dictInsert m k v) k2 =
      if k2 = k then some v else dictLookup m k2 := by
  unfold dictInsert dictLookup
  by_cases hany : m.any (fun q => q.1 == k) = true
  · simp only [hany, if_true]
    by_cases hk : k2 = k
    · subst hk
      rw [find?_update_same m k2 v hany]
      simp
    · rw [find?_update_other m k v k2 hk]
      simp [hk]
  · have hany2 : m.any (fun q => q.1 == k) = false := by
      cases hx : m.any (fun q => q.1 == k) with
      | false => rfl
      | true => exact absurd hx hany
    simp only [hany2, Bool.false_eq_true, if_false]
    rw [find?_append]
    by_cases hk : k2 = k
    · subst hk
      rw [find?_none_of_any_false m k2 hany2]
      simp
    · have h1 : ((k : List Char) == k2) = false := by
        simp only [beq_eq_false_iff_ne, ne_eq]
        exact fun h => hk h.symm
      cases hf : List.find? (fun q => q.1 == k2) m with
      | none => simp [List.find?, h1, hk]
      | some q => simp [hf, hk]

/- An html part is never a stored resource. -/
theorem isStoredResource_of_html (p : MimePart) (hp : isHtmlPart p = true) :
    isStoredResource p = false := by
  have hct : p.content_type = htmlType := by
    simpa [isHtmlPart] using hp
  have hin : isInlineableType htmlType = false := by decide
  simp [isStoredResource, hct, hin]

/- The image map produced by a successful walk, characterized key by key:
   the lookup of `k` is the data URI of the last stored part keyed `k`, or
   the incoming map's answer when no part stores `k`. -/
theorem walkFrom_images_lookup (soup : List Char → List Char) (parts : List MimePart) :
    ∀ (st : Option (List Char) × ImageMap) (h : Option (List Char))
      (imgs : ImageMap) (k : List Char),
      walkFrom soup st parts = Except.ok (h, imgs) →
      dictLookup imgs k =
        match lastMatch
            (fun p => isStoredResource p && (lastSegment p.content_location == k))
            parts with
        | some q => some (dataUriOf q)
        | none => dictLookup st.2 k := by
  induction parts with
  | nil =>
    intro st h imgs k hw
    simp only [walkFrom] at hw
    have hst := Except.ok.inj hw
    simp only [lastMatch]
    rw [hst]
  | cons p rest ih =>
    intro st h imgs k hw
    simp only [walkFrom] at hw
    cases hws : walkStep soup st p with
    | error e => rw [hws] at hw; exact absurd hw (by simp)
    | ok st2 =>
      rw [hws] at hw
      dsimp only at hw
      have ihm := ih st2 h imgs k hw
      simp only [lastMatch]
      cases hlm : lastMatch
          (fun p => isStoredResource p && (lastSegment p.content_location == k))
          rest with
      | some q =>
        rw [hlm] at ihm
        exact ihm
      | none =>
        rw [hlm] at ihm
        dsimp only at ihm
        by_cases hp : isHtmlPart p = true
        · have hsnd := walkStep_html_snd soup st st2 p hp hws
          have hsr := isStoredResource_of_html p hp
          simp only [hsr, Bool.false_and, Bool.false_eq_true, if_false]
          rw [ihm, hsnd]
        · have hp2 : isHtmlPart p = false := by
            cases hx : isHtmlPart p with
            | false => rfl
            | true => exact absurd hx hp
          have hstep := walkStep_not_html soup st p hp2
          rw [hstep] at hws
          have hst2 := Except.ok.inj hws
          by_cases hs : isStoredResource p = true
          · rw [← hst2, if_pos hs] at ihm
            dsimp only at ihm
            rw [dictLookup_dictInsert] at ihm
            simp only [hs, Bool.true_and]
            by_cases hkey : (lastSegment p.content_location == k) = true
            · have hkeq : lastSegment p.content_location = k := by simpa using hkey
              simp only [hkey, if_true]
              rw [ihm, if_pos hkeq.symm]
            · have hkey2 : (lastSegment p.content_location == k) = false := by
                cases hx : (lastSegment p.content_location == k) with
                | false => rfl
                | true => exact absurd hx hkey
              have hne : k ≠ lastSegment p.content_location := by
                intro hcontra
                rw [hcontra] at hkey2
                simp at hkey2
              simp only [hkey2, Bool.false_eq_true, if_false]
              rw [ihm, if_neg hne]
          · have hs2 : isStoredResource p = false := by
              cases hx : isStoredResource p with
              | false => rfl
              | true => exact absurd hx hs
            rw [← hst2, if_neg (by rw [hs2]; exact Bool.false_ne_true)] at ihm
            simp only [hs2, Bool.false_and, Bool.false_eq_true, if_false]
            exact ihm

/- ------------------------------------------------------------------ -/
/- Claims C3 - C7.                                                    -/
/- ------------------------------------------------------------------ -/

/-- C3 (counterexample): an archive with two text/html parts can raise.
Here the first html part has an empty payload, so `_clean_html` raises its
ValueError while the walk processes it, and `_extract_html` propagates the
error instead of resolving to the second part — refuting the claim that
for every archive with more than one html part the last part wins with no
error raised. -/
theorem extract_two_html_error_counterexample :
    isHtmlPart emptyHtmlPart = true ∧ isHtmlPart worldPart = true ∧
    extract_html id [emptyHtmlPart, worldPart] = Except.error PyErr.valueError := by
  refine ⟨by decide, by decide, ?_⟩
  rfl

/-- C3 (amended): for every archive whose text/html parts all carry
payloads that decode as nonempty UTF-8 text, the walk succeeds and
resolves html_content to the cleaned text of the last text/html part
encountered; in particular no error is raised and every earlier html part
is overwritten. -/
theorem extract_last_html_wins (soup : List Char → List Char)
    (pre : List MimePart) (p : MimePart) (post : List MimePart) (t : List Char)
    (hpre : ∀ q ∈ pre, isHtmlPart q = true →
      ∃ u, utf8Decode q.payload = some u ∧ u ≠ [])
    (hp : isHtmlPart p = true)
    (ht : utf8Decode p.payload = some t) (htne : t ≠ [])
    (hpost : ∀ q ∈ post, isHtmlPart q = false) :
    ∃ imgs, walk soup (pre ++ p :: post) =
      Except.ok (some (soup (cleanText t)), imgs) := by
  obtain ⟨st1, hw1⟩ := walkFrom_ok soup pre (none, []) hpre
  obtain ⟨imgs, hw3⟩ :=
    walkFrom_no_html soup post (some (soup (cleanText t)), st1.2) hpost
  refine ⟨imgs, ?_⟩
  unfold walk
  rw [walkFrom_append soup pre (p :: post) (none, []), hw1]
  dsimp only
  simp only [walkFrom, walkStep_html_ok soup st1 p t hp ht htne]
  exact hw3

/-- C3 (witness): the archive with html parts `Hello` then `World`
resolves to `World`. -/
theorem extract_last_html_wins_witness :
    ∃ imgs, walk id [helloPart, worldPart] =
      Except.ok (some ("World".data), imgs) := by
  obtain ⟨imgs, h⟩ := extract_last_html_wins id [helloPart] worldPart []
    ("World".data)
    (by
      intro q hq _
      have hql : q = helloPart := by simpa using hq
      subst hql
      exact ⟨"Hello".data, by decide, by decide⟩)
    (by decide) (by decide) (by decide)
    (by intro q hq; simp at hq)
  refine ⟨imgs, ?_⟩
  have he : id (cleanText ("World".data)) = "World".data := by decide
  rw [he] at h
  exact h

/-- C4 (counterexample): substitution passes run per map entry in
sequence, so entries can chain: with the map {a : b, b : c} the reference
`src="a"` in `<img src="a">` ends up as `src="c"`, not as the data URI `b`
that the map assigns to key `a` — the final document contains no
occurrence of `src="b"` at all.  Hence it is not true for every HTML text
and ResourceMap that each occurrence of `src="<key>"` is replaced with
that key's own data URI in the result. -/
theorem inliner_chained_keys_counterexample :
    hasPattern (srcPat ("a".data)) chainHtml = true ∧
    inlineResources chainHtml chainMap = ("<img src=\"c\">").data ∧
    hasPattern (srcPat ("b".data)) (inlineResources chainHtml chainMap) = false := by
  refine ⟨by decide, by decide, by decide⟩

/-- C4 (amended): each substitution pass of the Inliner replaces exactly
the leftmost non-overlapping literal occurrences of its pattern across the
whole document: for every key `k`, data URI `u` and document `h`, the
document factors as pattern-free pieces joined by `src="<k>"` — `h`
reconstructs as `joinWith` of its `pySplit` and every piece is free of the
pattern — and the pass returns those same pieces joined by `src="<u>"`;
likewise for `data-image-src`.  The passes run per map entry in insertion
order, so on the claim's example `src="logo.png"` becomes exactly
`src="data:image/png;base64,AAAA"` while `src="other.png"` is untouched,
and a document containing no reference to any mapped key is returned
completely unchanged.  The only amendment: when a later entry's pattern
occurs in an earlier entry's inserted text the passes chain, so the final
document need not contain each key's own data URI (see the
counterexample). -/
theorem inliner_exact_replacement :
    (∀ (k u h : List Char),
      h = joinWith (srcPat k) (pySplit (srcPat k) h) ∧
      pyReplace (srcPat k) (srcPat u) h =
        joinWith (srcPat u) (pySplit (srcPat k) h) ∧
      (∀ piece ∈ pySplit (srcPat k) h, hasPattern (srcPat k) piece = false) ∧
      h = joinWith (diSrcPat k) (pySplit (diSrcPat k) h) ∧
      pyReplace (diSrcPat k) (diSrcPat u) h =
        joinWith (diSrcPat u) (pySplit (diSrcPat k) h) ∧
      (∀ piece ∈ pySplit (diSrcPat k) h,
        hasPattern (diSrcPat k) piece = false)) ∧
    (inlineResources c4Html [(c4Key, c4Uri)] = c4Out) ∧
    (∀ (h : List Char) (images : ImageMap),
      (∀ kv ∈ images, hasPattern (srcPat kv.1) h = false ∧
        hasPattern (diSrcPat kv.1) h = false) →
      inlineResources h images = h) := by
  refine ⟨?_, by decide, ?_⟩
  · intro k u h
    have hks : srcPat k ≠ [] := by
      intro hc
      unfold srcPat at hc
      rw [List.append_eq_nil] at hc
      exact absurd hc.2 (by decide)
    have hkd : diSrcPat k ≠ [] := by
      intro hc
      unfold diSrcPat at hc
      rw [List.append_eq_nil] at hc
      exact absurd hc.2 (by decide)
    exact ⟨(join_pySplit (srcPat k) h).symm, pyReplace_eq_join _ _ _,
      pySplit_no_pattern _ _ hks, (join_pySplit (diSrcPat k) h).symm,
      pyReplace_eq_join _ _ _, pySplit_no_pattern _ _ hkd⟩
  · intro h images hno
    induction images with
    | nil => rfl
    | cons kv tl ih =>
      have hhead := hno kv (List.mem_cons_self kv tl)
      have hstep : inlineStep h kv = h := by
        unfold inlineStep
        rw [pyReplace_no_pattern _ _ _ hhead.1, pyReplace_no_pattern _ _ _ hhead.2]
      have htl : ∀ kv2 ∈ tl, hasPattern (srcPat kv2.1) h = false ∧
          hasPattern (diSrcPat kv2.1) h = false :=
        fun kv2 hkv2 => hno kv2 (List.mem_cons_of_mem kv hkv2)
      unfold inlineResources at ih ⊢
      rw [List.foldl_cons, hstep]
      exact ih htl

/-- C4 (witness): the exact-replacement clause at the claim's concrete key,
data URI and document, and the unchanged clause at a document with no
reference to the mapped key. -/
theorem inliner_exact_replacement_witness :
    (pyReplace (srcPat c4Key) (srcPat c4Uri) c4Html =
      joinWith (srcPat c4Uri) (pySplit (srcPat c4Key) c4Html)) ∧
    inlineResources c4PlainHtml c4MapW = c4PlainHtml :=
  ⟨(inliner_exact_replacement.1 c4Key c4Uri c4Html).2.1,
   inliner_exact_replacement.2.2 c4PlainHtml c4MapW (by decide)⟩

/-- C5: after any successful walk, the image map holds exactly the parts
whose content type starts with `image/` or equals
`application/octet-stream`, whose transfer encoding case-insensitively
equals `base64`, and whose content location is nonempty; the lookup of any
key `k` is the data URI `data:<content_type>;base64,<payload>` of the
*last* such part whose content location ends in segment `k` (last writer
wins, no error), and `none` when no stored part is keyed `k` (parts
without a content location are silently skipped). -/
theorem extract_images_lookup (soup : List Char → List Char)
    (parts : List MimePart) (h : Option (List Char)) (imgs : ImageMap)
    (k : List Char) (hw : walk soup parts = Except.ok (h, imgs)) :
    dictLookup imgs k =
      match lastMatch
          (fun p => isStoredResource p && (lastSegment p.content_location == k))
          parts with
      | some q => some (dataUriOf q)
      | none => none := by
  have hmain := walkFrom_images_lookup soup parts (none, []) h imgs k hw
  cases hlm : lastMatch
      (fun p => isStoredResource p && (lastSegment p.content_location == k))
      parts with
  | some q => rw [hlm] at hmain; exact hmain
  | none =>
    rw [hlm] at hmain
    exact hmain

/-- C5 (witness): two image parts share the location `img/a.png` (the
first with uppercase `BASE64` transfer encoding); the stored value under
key `a.png` is the data URI of the last one. -/
theorem extract_images_lookup_witness :
    dictLookup demoImgs ("a.png".data) = some (dataUriOf pngPartB) := by
  have h := extract_images_lookup id [pngPartA, pngPartB] none demoImgs
    ("a.png".data) (by rfl)
  rw [h]
  rfl

/-- C6: an archive with no text/html part makes `_extract_html` return an
absent html result (None), and — unless the output already exists as a
valid PDF — the conversion job returns False without any rendering call
being attempted (the None html fails inside `html_to_pdf` before the
browser is launched). -/
theorem convert_no_html_format_failure (soup : List Char → List Char)
    (parts : List MimePart) (env : ConvertEnv)
    (hnone : ∀ p ∈ parts, isHtmlPart p = false)
    (hskip : (env.outputExists && env.outputValidPdf) = false) :
    extract_html soup parts = Except.ok none ∧
    convert_mhtml_to_pdf soup parts env =
      { ok := false, readInput := true, renderCalled := false,
        pdfWritten := false } := by
  obtain ⟨imgs, hw⟩ := walkFrom_no_html soup parts (none, []) hnone
  have hx : extract_html soup parts = Except.ok none := by
    unfold extract_html walk
    rw [hw]
    rfl
  refine ⟨hx, ?_⟩
  unfold convert_mhtml_to_pdf
  rw [hskip]
  simp only [Bool.false_eq_true, if_false, hx]
  simp [html_to_pdf, htmlToPdfBody, runFinally]

/-- C6 (witness): a one-image archive with a fresh output path converts to
a format failure without rendering. -/
theorem convert_no_html_format_failure_witness :
    extract_html id [pngPartA] = Except.ok none ∧
    convert_mhtml_to_pdf id [pngPartA] envFresh =
      { ok := false, readInput := true, renderCalled := false,
        pdfWritten := false } :=
  convert_no_html_format_failure id [pngPartA] envFresh (by decide) (by rfl)

/-- C7: when the output path exists and validates as an openable PDF the
job returns success immediately, without reading the input or rendering;
when it exists but fails validation the job behaves exactly as if the
output did not exist (it proceeds and, on success, overwrites). -/
theorem convert_skip_and_revalidate (soup : List Char → List Char)
    (parts : List MimePart) (env : ConvertEnv) :
    (env.outputExists = true → env.outputValidPdf = true →
      convert_mhtml_to_pdf soup parts env =
        { ok := true, readInput := false, renderCalled := false,
          pdfWritten := false }) ∧
    (env.outputExists = true → env.outputValidPdf = false →
      convert_mhtml_to_pdf soup parts env =
        convert_mhtml_to_pdf soup parts { env with outputExists := false }) := by
  constructor
  · intro h1 h2
    simp [convert_mhtml_to_pdf, h1, h2]
  · intro h1 h2
    simp [convert_mhtml_to_pdf, h1, h2]

/-- C7 (witness): the skip and the revalidate behavior at a concrete
archive and environment. -/
theorem convert_skip_and_revalidate_witness :
    convert_mhtml_to_pdf id [worldPart] envDone =
      { ok := true, readInput := false, renderCalled := false,
        pdfWritten := false } ∧
    convert_mhtml_to_pdf id [worldPart] envStale =
      convert_mhtml_to_pdf id [worldPart] { envStale with outputExists := false } :=
  ⟨(convert_skip_and_revalidate id [worldPart] envDone).1 rfl rfl,
   (convert_skip_and_revalidate id [worldPart] envStale).2 rfl rfl⟩

/- ------------------------------------------------------------------ -/
/- Claims C8 - C10.                                                   -/
/- ------------------------------------------------------------------ -/

/- The xml / o:p sweep leaves no banned tag anywhere (Nat-bounded
   induction over the nested tree). -/
theorem noBanned_removeBannedList :
    ∀ (n : Nat) (l : List Node), sizeOf l ≤ n →
      noBannedList (removeBannedList l) = true := by
  intro n
  induction n with
  | zero =>
    intro l hl
    cases l with
    | nil => simp [removeBannedList, noBannedList]
    | cons hd tl => simp at hl
  | succ n ih =>
    intro l hl
    match l with
    | [] => simp [removeBannedList, noBannedList]
    | Node.text s :: tl =>
      have htl : sizeOf tl ≤ n := by simp at hl; omega
      simp [removeBannedList, noBannedList, ih tl htl]
    | Node.elem t cs :: tl =>
      have hcs : sizeOf cs ≤ n := by simp at hl; omega
      have htl : sizeOf tl ≤ n := by simp at hl; omega
      simp only [removeBannedList]
      split
      · exact ih tl htl
      · rename_i hb
        simp only [noBannedList, ih cs hcs, ih tl htl, Bool.and_true]
        simpa using hb

/- The div sweep preserves freedom from banned tags. -/
theorem noBanned_pruneList :
    ∀ (n : Nat) (l : List Node), sizeOf l ≤ n → noBannedList l = true →
      noBannedList (pruneList l) = true := by
  intro n
  induction n with
  | zero =>
    intro l hl hnb
    cases l with
    | nil => simp [pruneList, noBannedList]
    | cons hd tl => simp at hl
  | succ n ih =>
    intro l hl hnb
    match l with
    | [] => simp [pruneList, noBannedList]
    | Node.text s :: tl =>
      have htl : sizeOf tl ≤ n := by simp at hl; omega
      simp only [noBannedList] at hnb
      simp [pruneList, noBannedList, ih tl htl hnb]
    | Node.elem t cs :: tl =>
      have hcs : sizeOf cs ≤ n := by simp at hl; omega
      have htl : sizeOf tl ≤ n := by simp at hl; omega
      simp only [noBannedList, Bool.and_eq_true] at hnb
      obtain ⟨⟨hb, hcs2⟩, htl2⟩ := hnb
      simp only [pruneList]
      split
      · exact ih tl htl htl2
      · simp only [noBannedList, ih cs hcs hcs2, ih tl htl htl2, Bool.and_true]
        exact hb

/-- C8 (counterexample): `_clean_html` does not remove divs that become
empty only after their empty children are removed: the document
`<div><div></div></div>` cleans to `<div></div>`, so an empty div remains
in the tree — the sweep is a single document-order pass in which each div
is examined before its descendants are removed. -/
theorem clean_tree_nested_empty_div_counterexample :
    containsEmptyDiv (cleanTree [Node.elem divTag [Node.elem divTag []]]) = true := by
  simp [cleanTree, removeBannedList, pruneList, containsEmptyDiv, bannedTags, divTag]

/-- C8 (amended): after normalization no `xml` or `o:p` element remains
anywhere in the tree, and the div sweep removes exactly the divs that are
childless when examined: a cleaned forest collapses to nothing precisely
when it consisted entirely of childless divs.  A div whose children are
all removed by the same sweep, however, survives as an empty div. -/
theorem clean_tree_no_banned_and_prune_exact :
    (∀ doc : List Node, noBannedList (cleanTree doc) = true) ∧
    (∀ cs : List Node, (pruneList cs).isEmpty = cs.all isEmptyDivNode) := by
  constructor
  · intro doc
    have h1 := noBanned_removeBannedList (sizeOf doc) doc (Nat.le_refl _)
    exact noBanned_pruneList (sizeOf (removeBannedList doc)) _ (Nat.le_refl _) h1
  · intro cs
    induction cs with
    | nil => simp [pruneList]
    | cons hd tl ih =>
      match hd with
      | Node.text s => simp [pruneList, isEmptyDivNode]
      | Node.elem t cs2 =>
        simp only [pruneList]
        split
        · rename_i hd2
          simp [isEmptyDivNode, hd2, ih]
        · rename_i hd2
          simp only [List.all_cons, isEmptyDivNode]
          have hfalse : (t == divTag && cs2.isEmpty) = false := by
            cases hx : (t == divTag && cs2.isEmpty) with
            | false => rfl
            | true => exact absurd hx hd2
          simp [hfalse]

/-- C9: whatever `html_to_pdf` is given — a None body (TypeError inside
the try), a render failure, or a successful render — the `finally` block
removes the temporary `.html` file, so no intermediate HTML byproduct
remains when the function returns. -/
theorem html_to_pdf_temp_file_cleaned (html : Option (List Char)) (renderOk : Bool) :
    (html_to_pdf html renderOk).2.2.tempHtmlExists = false := by
  cases html with
  | none => rfl
  | some h => cases renderOk <;> rfl

/-- C10: `main`'s single-file branch raises its ValueError exactly when
the lowercased suffix of the input path is not `.mhtml`, `.mht` or `.doc`;
in particular the uppercase extension of `docs/report.MHT` is accepted. -/
theorem main_extension_case_insensitive :
    (∀ p : List Char, main_single_raises p = false ↔
      lowercase (pySuffix (pathName p)) ∈ allowedExts) ∧
    main_single_raises demoUpperPath = false := by
  constructor
  · intro p
    unfold main_single_raises
    constructor
    · intro h
      have hc : allowedExts.contains (lowercase (pySuffix (pathName p))) = true := by
        cases hx : allowedExts.contains (lowercase (pySuffix (pathName p))) with
        | true => rfl
        | false => rw [hx] at h; simp at h
      simpa using hc
    · intro h
      have hc : allowedExts.contains (lowercase (pySuffix (pathName p))) = true := by
        simpa using h
      rw [hc]
      rfl
  · decide
